import Mathlib

/-!
Verification of the compas dynamic relaxation solver (`dr_numpy`) and the
Laplacian smoothing routines (`smooth_centroid`) against their specification.

The numeric model: IEEE-754 double arithmetic is embedded as exact rational
arithmetic extended with `+Inf`, `-Inf` and `NaN`, following the IEEE special
value rules for the operations the solver uses (no rounding and no overflow
are modelled; zero is unsigned).  `sqrt` (used by `normrow`) is exact on
perfect rational squares and otherwise delegates to an explicit parameter
`sq`, over which all general theorems are universally quantified.
-/

namespace Compas

/-- A floating point value: a finite rational, one of the two infinities,
or NaN. -/
inductive F where
  | fin (q : ℚ)
  | pinf
  | ninf
  | nan
deriving DecidableEq, Repr

/-- IEEE addition on the float model. -/
def addF : F → F → F
  | F.nan, _ => F.nan
  | _, F.nan => F.nan
  | F.pinf, F.ninf => F.nan
  | F.ninf, F.pinf => F.nan
  | F.pinf, _ => F.pinf
  | _, F.pinf => F.pinf
  | F.ninf, _ => F.ninf
  | _, F.ninf => F.ninf
  | F.fin a, F.fin b => F.fin (a + b)

/-- IEEE negation on the float model. -/
def negF : F → F
  | F.nan => F.nan
  | F.pinf => F.ninf
  | F.ninf => F.pinf
  | F.fin a => F.fin (-a)

/-- IEEE subtraction, `a - b = a + (-b)`. -/
def subF (a b : F) : F := addF a (negF b)

/-- IEEE multiplication on the float model (`0 * Inf = NaN`). -/
def mulF : F → F → F
  | F.nan, _ => F.nan
  | _, F.nan => F.nan
  | F.pinf, F.pinf => F.pinf
  | F.pinf, F.ninf => F.ninf
  | F.ninf, F.pinf => F.ninf
  | F.ninf, F.ninf => F.pinf
  | F.fin a, F.pinf => if 0 < a then F.pinf else if a < 0 then F.ninf else F.nan
  | F.fin a, F.ninf => if 0 < a then F.ninf else if a < 0 then F.pinf else F.nan
  | F.pinf, F.fin b => if 0 < b then F.pinf else if b < 0 then F.ninf else F.nan
  | F.ninf, F.fin b => if 0 < b then F.ninf else if b < 0 then F.pinf else F.nan
  | F.fin a, F.fin b => F.fin (a * b)

/-- IEEE division on the float model; division of a nonzero finite value by
zero gives a signed infinity (zero is treated as `+0`), `0 / 0 = NaN`. -/
def divF : F → F → F
  | F.nan, _ => F.nan
  | _, F.nan => F.nan
  | F.pinf, F.pinf => F.nan
  | F.pinf, F.ninf => F.nan
  | F.ninf, F.pinf => F.nan
  | F.ninf, F.ninf => F.nan
  | F.fin _, F.pinf => F.fin 0
  | F.fin _, F.ninf => F.fin 0
  | F.pinf, F.fin b => if 0 ≤ b then F.pinf else F.ninf
  | F.ninf, F.fin b => if 0 ≤ b then F.ninf else F.pinf
  | F.fin a, F.fin b =>
      if b = 0 then (if a = 0 then F.nan else if 0 < a then F.pinf else F.ninf)
      else F.fin (a / b)

/-- Whether a float value is finite (`numpy.isfinite`); NaN and the two
infinities are not finite. -/
def F.isFinite : F → Bool
  | F.fin _ => true
  | _ => false

/-- The per-row sanitation the solver applies with `x[isinf(x)] = 0` followed
by `x[isnan(x)] = 0`: any non-finite entry is replaced by zero. -/
def cleanF (x : F) : F := if x.isFinite then x else F.fin 0

/-- IEEE `<` comparison as used by `crit < tol`; any comparison with NaN is
false. -/
def ltF : F → F → Bool
  | F.nan, _ => false
  | _, F.nan => false
  | F.pinf, _ => false
  | F.ninf, F.ninf => false
  | F.ninf, _ => true
  | F.fin _, F.pinf => true
  | F.fin _, F.ninf => false
  | F.fin a, F.fin b => decide (a < b)

instance : Zero F := ⟨F.fin 0⟩

instance : Add F := ⟨addF⟩

instance : AddCommMonoid F where
  add_assoc := fun a b c => by
    show addF (addF a b) c = addF a (addF b c)
    cases a <;> cases b <;> cases c <;> simp [addF] <;> ring
  zero_add := fun a => by
    show addF (F.fin 0) a = a
    cases a <;> simp [addF]
  add_zero := fun a => by
    show addF a (F.fin 0) = a
    cases a <;> simp [addF]
  add_comm := fun a b => by
    show addF a b = addF b a
    cases a <;> cases b <;> simp [addF] <;> ring
  nsmul := nsmulRec

/-- Embedding of the finite rationals into the float model, as an additive
monoid homomorphism (used to push sums of finite values inside `F.fin`). -/
def finHom : ℚ →+ F where
  toFun := F.fin
  map_zero' := rfl
  map_add' := fun _ _ => rfl

/-- An XYZ row of a V×3 array. -/
def Vec3 : Type := F × F × F

instance : DecidableEq Vec3 := by unfold Vec3; infer_instance

instance : AddCommMonoid Vec3 := by unfold Vec3; infer_instance

/-- Row addition. -/
def add3 (a b : Vec3) : Vec3 := (addF a.1 b.1, addF a.2.1 b.2.1, addF a.2.2 b.2.2)

/-- Row subtraction. -/
def sub3 (a b : Vec3) : Vec3 := (subF a.1 b.1, subF a.2.1 b.2.1, subF a.2.2 b.2.2)

/-- Scalar times row, scalar on the left (as in `dt * a(...)`). -/
def smulL (a : F) (v : Vec3) : Vec3 := (mulF a v.1, mulF a v.2.1, mulF a v.2.2)

/-- Row times scalar, scalar on the right (as in `v * t`). -/
def smulR (v : Vec3) (a : F) : Vec3 := (mulF v.1 a, mulF v.2.1 a, mulF v.2.2 a)

/-- Rowwise division by a scalar (V×1 broadcast), as in `r / mass`. -/
def div3 (v : Vec3) (a : F) : Vec3 := (divF v.1 a, divF v.2.1 a, divF v.2.2 a)

/-- Sum of squares of the three components of a row, as computed by a row
norm before the square root. -/
def sqlen (v : Vec3) : F := addF (addF (mulF v.1 v.1) (mulF v.2.1 v.2.1)) (mulF v.2.2 v.2.2)

/-- The all-zero row. -/
def zero3 : Vec3 := (F.fin 0, F.fin 0, F.fin 0)

/-- Newton iteration for the natural-number square root, with explicit fuel
(the iteration stops as soon as the guess no longer decreases). -/
def sqrtIter (n : ℕ) : ℕ → ℕ → ℕ
  | 0, g => g
  | fuel + 1, g =>
      let g' := (g + n / g) / 2
      if g' < g then sqrtIter n fuel g' else g

/-- Integer square root (rounded down). -/
def natSqrt (n : ℕ) : ℕ := if n ≤ 1 then n else sqrtIter n n ((n + 1) / 2)

/-- Exact square root of a nonnegative rational, when the rational is a
perfect square; `none` otherwise. -/
def ratSqrt (q : ℚ) : Option ℚ :=
  if q < 0 then none
  else
    let rn := natSqrt q.num.toNat
    let rd := natSqrt q.den
    if rn * rn = q.num.toNat ∧ rd * rd = q.den then some ((rn : ℚ) / (rd : ℚ)) else none

/-- Square root on the float model.  `sqrt NaN = NaN`, `sqrt (+Inf) = +Inf`,
`sqrt` of a negative value is NaN; on nonnegative finite values the root is
exact when it is rational and otherwise given by the parameter `sq` (general
theorems quantify over `sq`; on the concrete inputs used in this file every
root is exact, so `sq` is never consulted there). -/
def sqrtF (sq : ℚ → ℚ) : F → F
  | F.nan => F.nan
  | F.pinf => F.pinf
  | F.ninf => F.nan
  | F.fin q =>
      if q < 0 then F.nan
      else
        match ratSqrt q with
        | some r => F.fin r
        | none => F.fin (sq q)

/-- Named options of `dr_numpy`, read from `kwargs` with these defaults.
`steps` is listed by the spec as a recognized option with default 4; the
source never reads it (see the theorems for claim C4). -/
structure DROptions where
  kmax : ℕ := 10000
  dt : ℚ := 1
  tol1 : ℚ := 1 / 1000
  tol2 : ℚ := 1 / 1000000
  c : ℚ := 1 / 10
  steps : ℕ := 4

/-- The inputs of `dr_numpy`: vertex coordinates, edge list, fixed vertex
indices, loads, and the six per-edge attribute lists. -/
structure DRInput (V E : ℕ) where
  vertices : Fin V → ℚ × ℚ × ℚ
  edges : Fin E → Fin V × Fin V
  fixed : Finset (Fin V)
  loads : Fin V → ℚ × ℚ × ℚ
  qpre : Fin E → ℚ
  fpre : Fin E → ℚ
  lpre : Fin E → ℚ
  linit : Fin E → ℚ
  Emod : Fin E → ℚ
  radius : Fin E → ℚ

/-- Lift a rational coordinate triple to a float row. -/
def finV3 (p : ℚ × ℚ × ℚ) : Vec3 := (F.fin p.1, F.fin p.2.1, F.fin p.2.2)

variable {V E : ℕ}

/-- `free = set(range(num_v)) - set(fixed)`: a vertex is free iff it is not
fixed. -/
def isFree (inp : DRInput V E) (i : Fin V) : Prop := i ∉ inp.fixed

instance (inp : DRInput V E) (i : Fin V) : Decidable (isFree inp i) := by
  unfold isFree; infer_instance

/-- Modelled from the spec: `connectivity_matrix` is not under `src/`; §4.1
defines the signed incidence operator `C` with `C[e, i] = -1` and
`C[e, j] = +1` for edge `e = (i, j)` (duplicate COO entries of a degenerate
self-loop sum to zero on CSR conversion).  This is the stored value of `C`
at row `e`, column `k`. -/
def cE (inp : DRInput V E) (e : Fin E) (k : Fin V) : ℚ :=
  (if k = (inp.edges e).1 then -1 else 0) + (if k = (inp.edges e).2 then 1 else 0)

/-- The sparse pattern of row `e` of `C`: the stored columns are the
endpoints of edge `e`. -/
def inc (inp : DRInput V E) (e : Fin E) (k : Fin V) : Prop :=
  k = (inp.edges e).1 ∨ k = (inp.edges e).2

instance (inp : DRInput V E) (e : Fin E) (k : Fin V) : Decidable (inc inp e k) := by
  unfold inc; infer_instance

/-- `C.dot(x)`: sparse matrix–vector product over the stored entries of row
`e` only (an unstored column never multiplies its `x` row). -/
def C_dot (inp : DRInput V E) (x : Fin V → Vec3) (e : Fin E) : Vec3 :=
  ∑ k in Finset.univ.filter (fun k => inc inp e k), smulL (F.fin (cE inp e k)) (x k)

/-- Modelled from the spec: `normrow` is not under `src/`; §2 describes it as
"row norms over an N×3 array", the Euclidean norm of each row. -/
def normrow (sq : ℚ → ℚ) (u : Fin E → Vec3) (e : Fin E) : F := sqrtF sq (sqlen (u e))

/-- `A = 3.14159 * radius ** 2`, the cross-section area. -/
def areaOf (inp : DRInput V E) (e : Fin E) : ℚ := (314159 / 100000 : ℚ) * inp.radius e ^ 2

/-- `EA = E * A`, the axial stiffness of an edge. -/
def EAOf (inp : DRInput V E) (e : Fin E) : ℚ := inp.Emod e * areaOf inp e

/-- The initial edge lengths `normrow(C.dot(x))` computed from the input
vertex coordinates. -/
def l0 (inp : DRInput V E) (sq : ℚ → ℚ) (e : Fin E) : F :=
  normrow sq (C_dot inp (fun i => finV3 (inp.vertices i))) e

/-- The `linit` array after the one-time autofill: if all entries of the
input `linit` are zero it becomes the current edge lengths, otherwise it is
the input unchanged. -/
def linitF (inp : DRInput V E) (sq : ℚ → ℚ) (e : Fin E) : F :=
  if ∀ e', inp.linit e' = 0 then l0 inp sq e else F.fin (inp.linit e)

/-- `q_fpre = fpre / l`.  Note: the source applies no sanitation to this
term (only `q_lpre` and `q_EA` are cleaned). -/
def q_fpre (inp : DRInput V E) (l : Fin E → F) (e : Fin E) : F :=
  divF (F.fin (inp.fpre e)) (l e)

/-- `q_lpre = f / lpre` followed by `q_lpre[isinf] = 0; q_lpre[isnan] = 0`. -/
def q_lpre (inp : DRInput V E) (f : Fin E → F) (e : Fin E) : F :=
  cleanF (divF (f e) (F.fin (inp.lpre e)))

/-- `q_EA = EA * (l - linit) / (linit * l)` followed by
`q_EA[isinf] = 0; q_EA[isnan] = 0`. -/
def q_EA (inp : DRInput V E) (sq : ℚ → ℚ) (l : Fin E → F) (e : Fin E) : F :=
  cleanF (divF (mulF (F.fin (EAOf inp e)) (subF (l e) (linitF inp sq e)))
               (mulF (linitF inp sq e) (l e)))

/-- `q = qpre + q_fpre + q_lpre + q_EA`, the edge-law assembly of one
iteration. -/
def assembleQ (inp : DRInput V E) (sq : ℚ → ℚ) (l f : Fin E → F) (e : Fin E) : F :=
  addF (addF (addF (F.fin (inp.qpre e)) (q_fpre inp l e)) (q_lpre inp f e)) (q_EA inp sq l e)

/-- The per-edge summand of the mass estimate:
`qpre + q_fpre + q_lpre + EA / linit` (the last term is not sanitized). -/
def massTerm (inp : DRInput V E) (sq : ℚ → ℚ) (l f : Fin E → F) (e : Fin E) : F :=
  addF (addF (addF (F.fin (inp.qpre e)) (q_fpre inp l e)) (q_lpre inp f e))
       (divF (F.fin (EAOf inp e)) (linitF inp sq e))

/-- `Ct2.dot(s)`: `Ct2` is the transpose of `C` with each stored value
squared, so row `i` sums `cE² * s[e]` over the edges incident to `i`. -/
def Ct2_dot (inp : DRInput V E) (s : Fin E → F) (i : Fin V) : F :=
  ∑ e in Finset.univ.filter (fun e => inc inp e i), mulF (F.fin (cE inp e i ^ 2)) (s e)

/-- `mass = 0.5 * dt ** 2 * Ct2.dot(qpre + q_fpre + q_lpre + EA / linit)`. -/
def massOf (inp : DRInput V E) (opts : DROptions) (sq : ℚ → ℚ) (l f : Fin E → F)
    (i : Fin V) : F :=
  mulF (F.fin (1 / 2 * opts.dt ^ 2)) (Ct2_dot inp (massTerm inp sq l f) i)

/-- The sparse pattern of `D = Cit.dot(Q).dot(C)`: column `k` is stored in
row `i` iff some edge is incident to both `i` and `k`. -/
def patD (inp : DRInput V E) (i k : Fin V) : Prop := ∃ e, inc inp e i ∧ inc inp e k

instance (inp : DRInput V E) (i k : Fin V) : Decidable (patD inp i k) := by
  unfold patD; infer_instance

/-- The stored value of `D = Cit.dot(Q).dot(C)` at `(i, k)`: the
`Cit.dot(Q)` factor is materialized first (value `cE * q`), then multiplied
into `C` and summed over the shared edge index. -/
def Dent (inp : DRInput V E) (q : Fin E → F) (i k : Fin V) : F :=
  ∑ e in Finset.univ.filter (fun e => inc inp e i ∧ inc inp e k),
    mulF (mulF (F.fin (cE inp e i)) (q e)) (F.fin (cE inp e k))

/-- `D.dot(x)` at free row `i`: the materialized row of `D` times `x`,
summing over the stored pattern only. -/
def D_dot (inp : DRInput V E) (q : Fin E → F) (i : Fin V) (x : Fin V → Vec3) : Vec3 :=
  ∑ k in Finset.univ.filter (fun k => patD inp i k), smulL (Dent inp q i k) (x k)

/-- `Ct.dot(Q).dot(u)` at row `i`: the materialized `(Ct.Q)[i, e] = cE * q`
times `u[e]`, summed over the edges incident to `i`. -/
def CtQ_dot (inp : DRInput V E) (q : Fin E → F) (u : Fin E → Vec3) (i : Fin V) : Vec3 :=
  ∑ e in Finset.univ.filter (fun e => inc inp e i), smulL (mulF (F.fin (cE inp e i)) (q e)) (u e)

/-- `ca = (1 - c * 0.5) / (1 + c * 0.5)` of the `Coeff` helper (the driver
checks the denominator; see `dr_numpy`). -/
def caOf (opts : DROptions) : ℚ := (1 - opts.c * (1 / 2)) / (1 + opts.c * (1 / 2))

/-- `cb = 0.5 * (1 + ca)` of the `Coeff` helper. -/
def cbOf (opts : DROptions) : ℚ := 1 / 2 * (1 + caOf opts)

/-- The acceleration closure `a(t, v)` of `rk`: writes
`x[free] = x0[free] + (v*t)[free]` (fixed rows keep the iteration-start
positions), recomputes `r[free] = p[free] - D.dot(x)` (fixed rows keep the
incoming residual array), and returns `cb * r / mass`. -/
def accel (inp : DRInput V E) (opts : DROptions) (q : Fin E → F) (massv : Fin V → F)
    (rstate : Fin V → Vec3) (x0 : Fin V → Vec3) (t : F) (v : Fin V → Vec3)
    (i : Fin V) : Vec3 :=
  let xt : Fin V → Vec3 := fun j => if isFree inp j then add3 (x0 j) (smulR (v j) t) else x0 j
  let rt : Fin V → Vec3 :=
    fun j => if isFree inp j then sub3 (finV3 (inp.loads j)) (D_dot inp q j xt) else rstate j
  div3 (smulL (F.fin (cbOf opts)) (rt i)) (massv i)

/-- The Butcher coefficient table `K` of the source. -/
def Ktab : List (List ℚ) := [[0], [1 / 2, 1 / 2], [1 / 2, 0, 1 / 2], [1, 0, 0, 1]]

/-- Lookup `K[i][j]`. -/
def Kc (i j : ℕ) : ℚ := (Ktab.getD i []).getD j 0

/-- Errors the driver can raise: `NotImplementedError` from `rk` for an
unsupported stage count, and Python's `ZeroDivisionError` from the `Coeff`
constructor when `1 + c * 0.5 == 0`. -/
inductive DRError where
  | notImpl
  | zeroDiv
deriving DecidableEq

/-- The `rk(x0, v0, steps)` helper of the source.  `steps = 1` returns
`a(dt, v0)` directly; `steps = 2` and `steps = 4` combine `dt * a(...)`
stages with the `K` table and the `B` weights; any other value raises
`NotImplementedError`. -/
def rk (inp : DRInput V E) (opts : DROptions) (q : Fin E → F) (massv : Fin V → F)
    (rstate : Fin V → Vec3) (x0 v0 : Fin V → Vec3) (steps : ℕ) :
    Except DRError (Fin V → Vec3) :=
  let dt := opts.dt
  let a := accel inp opts q massv rstate x0
  if steps = 1 then Except.ok (a (F.fin dt) v0)
  else if steps = 2 then
    let K0 := a (F.fin (Kc 0 0 * dt)) v0
    let K0 := fun i => smulL (F.fin dt) (K0 i)
    let K1 := a (F.fin (Kc 1 0 * dt)) (fun j => add3 (v0 j) (smulL (F.fin (Kc 1 1)) (K0 j)))
    let K1 := fun i => smulL (F.fin dt) (K1 i)
    Except.ok (fun i => add3 (smulL (F.fin (0 : ℚ)) (K0 i)) (smulL (F.fin (1 : ℚ)) (K1 i)))
  else if steps = 4 then
    let K0 := a (F.fin (Kc 0 0 * dt)) v0
    let K0 := fun i => smulL (F.fin dt) (K0 i)
    let K1 := a (F.fin (Kc 1 0 * dt)) (fun j => add3 (v0 j) (smulL (F.fin (Kc 1 1)) (K0 j)))
    let K1 := fun i => smulL (F.fin dt) (K1 i)
    let K2 := a (F.fin (Kc 2 0 * dt))
      (fun j => add3 (add3 (v0 j) (smulL (F.fin (Kc 2 1)) (K0 j))) (smulL (F.fin (Kc 2 2)) (K1 j)))
    let K2 := fun i => smulL (F.fin dt) (K2 i)
    let K3 := a (F.fin (Kc 3 0 * dt))
      (fun j => add3 (add3 (add3 (v0 j) (smulL (F.fin (Kc 3 1)) (K0 j)))
        (smulL (F.fin (Kc 3 2)) (K1 j))) (smulL (F.fin (Kc 3 3)) (K2 j)))
    let K3 := fun i => smulL (F.fin dt) (K3 i)
    Except.ok (fun i =>
      add3 (add3 (add3 (smulL (F.fin (1 / 6 : ℚ)) (K0 i)) (smulL (F.fin (1 / 3 : ℚ)) (K1 i)))
        (smulL (F.fin (1 / 3 : ℚ)) (K2 i))) (smulL (F.fin (1 / 6 : ℚ)) (K3 i)))
  else Except.error DRError.notImpl

/-- The mutable state live across iterations of `dr_numpy`. -/
structure DRState (V E : ℕ) where
  x : Fin V → Vec3
  v : Fin V → Vec3
  r : Fin V → Vec3
  q : Fin E → F
  l : Fin E → F
  f : Fin E → F

/-- The initial values of the state: `q = ones`, `l` the current edge
lengths, `f = q * l`, `v = 0`, `r = 0`, `x` the input coordinates. -/
def initState (inp : DRInput V E) (sq : ℚ → ℚ) : DRState V E where
  x := fun i => finV3 (inp.vertices i)
  v := fun _ => zero3
  r := fun _ => zero3
  q := fun _ => F.fin 1
  l := l0 inp sq
  f := fun e => mulF (F.fin 1) (l0 inp sq e)

/-- The edge force densities `q` assembled at the start of an iteration
from the state's `l` and `f`. -/
def qOf (inp : DRInput V E) (sq : ℚ → ℚ) (s : DRState V E) : Fin E → F :=
  assembleQ inp sq s.l s.f

/-- The fictitious masses of an iteration. -/
def massvOf (inp : DRInput V E) (opts : DROptions) (sq : ℚ → ℚ) (s : DRState V E) :
    Fin V → F :=
  massOf inp opts sq s.l s.f

/-- `v0 = ca * v.copy()`, the damped velocity snapshot. -/
def v0Of (opts : DROptions) (s : DRState V E) : Fin V → Vec3 :=
  fun i => smulL (F.fin (caOf opts)) (s.v i)

/-- `dv = rk(x0, v0, steps=4)`.  The source passes the literal `steps=4`,
so the `NotImplementedError` branch of `rk` is unreachable; it is mapped to
a zero increment here. -/
def dvOf (inp : DRInput V E) (opts : DROptions) (sq : ℚ → ℚ) (s : DRState V E) :
    Fin V → Vec3 :=
  match rk inp opts (qOf inp sq s) (massvOf inp opts sq s) s.r s.x (v0Of opts s) 4 with
  | Except.ok d => d
  | Except.error _ => fun _ => zero3

/-- `v[free] = v0[free] + dv[free]` (fixed rows untouched). -/
def vNew (inp : DRInput V E) (opts : DROptions) (sq : ℚ → ℚ) (s : DRState V E) :
    Fin V → Vec3 :=
  fun i => if isFree inp i then add3 (v0Of opts s i) (dvOf inp opts sq s i) else s.v i

/-- `x[free] = x0[free] + dx[free]` with `dx = v * dt` (fixed rows
untouched; `x0` is the iteration-start copy of `x`). -/
def xNew (inp : DRInput V E) (opts : DROptions) (sq : ℚ → ℚ) (s : DRState V E) :
    Fin V → Vec3 :=
  fun i => if isFree inp i then
    add3 (s.x i) (smulR (vNew inp opts sq s i) (F.fin opts.dt)) else s.x i

/-- `u = C.dot(x)` after the position update. -/
def uNew (inp : DRInput V E) (opts : DROptions) (sq : ℚ → ℚ) (s : DRState V E) :
    Fin E → Vec3 :=
  C_dot inp (xNew inp opts sq s)

/-- `l = normrow(u)` after the position update. -/
def lNew (inp : DRInput V E) (opts : DROptions) (sq : ℚ → ℚ) (s : DRState V E) :
    Fin E → F :=
  normrow sq (uNew inp opts sq s)

/-- `f = q * l` after the position update. -/
def fNew (inp : DRInput V E) (opts : DROptions) (sq : ℚ → ℚ) (s : DRState V E) :
    Fin E → F :=
  fun e => mulF (qOf inp sq s e) (lNew inp opts sq s e)

/-- `r = p - Ct.dot(Q).dot(u)`, the full residual over all rows (fixed rows
included). -/
def rNew (inp : DRInput V E) (opts : DROptions) (sq : ℚ → ℚ) (s : DRState V E) :
    Fin V → Vec3 :=
  fun i => sub3 (finV3 (inp.loads i)) (CtQ_dot inp (qOf inp sq s) (uNew inp opts sq s) i)

/-- One iteration of the `for k in range(kmax)` loop: edge-law assembly,
mass, RK velocity update on free rows, position update on free rows, then
recomputation of `u`, `l`, `f` and the full residual `r`. -/
def iterStep (inp : DRInput V E) (opts : DROptions) (sq : ℚ → ℚ) (s : DRState V E) :
    DRState V E :=
  ⟨xNew inp opts sq s, vNew inp opts sq s, rNew inp opts sq s,
   qOf inp sq s, lNew inp opts sq s, fNew inp opts sq s⟩

/-- Run exactly `k` iterations (no convergence test). -/
def iterN (inp : DRInput V E) (opts : DROptions) (sq : ℚ → ℚ) :
    ℕ → DRState V E → DRState V E
  | 0, s => s
  | k + 1, s => iterN inp opts sq k (iterStep inp opts sq s)

/-- `crit1 = norm(r[free])`, the Frobenius norm of the free rows of the
residual. -/
def crit1 (inp : DRInput V E) (sq : ℚ → ℚ) (s : DRState V E) : F :=
  sqrtF sq (∑ i in Finset.univ.filter (fun i => isFree inp i), sqlen (s.r i))

/-- `crit2 = norm(dx[free])` with `dx = v * dt`. -/
def crit2 (inp : DRInput V E) (opts : DROptions) (sq : ℚ → ℚ) (s : DRState V E) : F :=
  sqrtF sq (∑ i in Finset.univ.filter (fun i => isFree inp i),
    sqlen (smulR (s.v i) (F.fin opts.dt)))

/-- The iteration loop with the two convergence tests (`crit1 < tol1` or
`crit2 < tol2` breaks; NaN comparisons are false, so a NaN state iterates to
`kmax`). -/
def drLoop (inp : DRInput V E) (opts : DROptions) (sq : ℚ → ℚ) :
    ℕ → DRState V E → DRState V E
  | 0, s => s
  | n + 1, s =>
      let s' := iterStep inp opts sq s
      if ltF (crit1 inp sq s') (F.fin opts.tol1) then s'
      else if ltF (crit2 inp opts sq s') (F.fin opts.tol2) then s'
      else drLoop inp opts sq n s'

/-- The `dr_numpy` driver: no option validation is performed; the only
pre-iteration failure of the source (with no callback supplied) is the
float `ZeroDivisionError` in `Coeff` when `1 + c * 0.5 == 0`; then the loop
runs for at most `kmax` iterations and the final state is returned. -/
def dr_numpy (inp : DRInput V E) (opts : DROptions) (sq : ℚ → ℚ) :
    Except DRError (DRState V E) :=
  if (1 : ℚ) + opts.c * (1 / 2) = 0 then Except.error DRError.zeroDiv
  else Except.ok (drLoop inp opts sq opts.kmax (initState inp sq))

/-- Modelled from the spec: §6 lists `steps ∈ {1, 2, 4}` with default 4 as a
recognized option of the driver, so this iteration passes the caller's
`steps` option to `rk` (the source instead hardcodes `steps=4`); used to
compare the spec's contract with the source's behaviour. -/
def iterStepSpec (inp : DRInput V E) (opts : DROptions) (sq : ℚ → ℚ) (s : DRState V E) :
    Except DRError (DRState V E) :=
  let q := assembleQ inp sq s.l s.f
  let massv := massOf inp opts sq s.l s.f
  let x0 := s.x
  let v0 := fun i => smulL (F.fin (caOf opts)) (s.v i)
  match rk inp opts q massv s.r x0 v0 opts.steps with
  | Except.error err => Except.error err
  | Except.ok dv =>
    let v1 := fun i => if isFree inp i then add3 (v0 i) (dv i) else s.v i
    let dx := fun i => smulR (v1 i) (F.fin opts.dt)
    let x1 := fun i => if isFree inp i then add3 (x0 i) (dx i) else s.x i
    let u := C_dot inp x1
    let l1 := normrow sq u
    let f1 := fun e => mulF (q e) (l1 e)
    let r1 := fun i => sub3 (finV3 (inp.loads i)) (CtQ_dot inp q u i)
    Except.ok ⟨x1, v1, r1, q, l1, f1⟩

/-- Modelled from the spec: the driver loop with the `steps` option
respected (see `iterStepSpec`). -/
def drLoopSpec (inp : DRInput V E) (opts : DROptions) (sq : ℚ → ℚ) :
    ℕ → DRState V E → Except DRError (DRState V E)
  | 0, s => Except.ok s
  | n + 1, s =>
      match iterStepSpec inp opts sq s with
      | Except.error err => Except.error err
      | Except.ok s' =>
          if ltF (crit1 inp sq s') (F.fin opts.tol1) then Except.ok s'
          else if ltF (crit2 inp opts sq s') (F.fin opts.tol2) then Except.ok s'
          else drLoopSpec inp opts sq n s'

/-- Modelled from the spec: `dr_numpy` as the spec describes it, with the
`steps` option recognized and forwarded to the Runge–Kutta helper. -/
def dr_numpySpec (inp : DRInput V E) (opts : DROptions) (sq : ℚ → ℚ) :
    Except DRError (DRState V E) :=
  if (1 : ℚ) + opts.c * (1 / 2) = 0 then Except.error DRError.zeroDiv
  else drLoopSpec inp opts sq opts.kmax (initState inp sq)

/-- Modelled from the spec: the Butcher tableau of §4.5 exactly as written
there — `s = 1`: `Δv = K₀` with `K₀ = dt · a(0, v₀)`; `s = 2`:
`K₀ = dt · a(0, v₀)`, `K₁ = dt · a(dt, v₀ + K₀)`, `Δv = 0·K₀ + 1·K₁`;
`s = 4` as in the table; anything else a configuration error. -/
def rkSpec (inp : DRInput V E) (opts : DROptions) (q : Fin E → F) (massv : Fin V → F)
    (rstate : Fin V → Vec3) (x0 v0 : Fin V → Vec3) (steps : ℕ) :
    Except DRError (Fin V → Vec3) :=
  let dt := opts.dt
  let a := accel inp opts q massv rstate x0
  if steps = 1 then
    let K0 := fun i => smulL (F.fin dt) (a (F.fin 0) v0 i)
    Except.ok K0
  else if steps = 2 then
    let K0 := fun i => smulL (F.fin dt) (a (F.fin 0) v0 i)
    let K1 := fun i => smulL (F.fin dt) (a (F.fin dt) (fun j => add3 (v0 j) (K0 j)) i)
    Except.ok (fun i => add3 (smulL (F.fin (0 : ℚ)) (K0 i)) (smulL (F.fin (1 : ℚ)) (K1 i)))
  else if steps = 4 then
    let K0 := fun i => smulL (F.fin dt) (a (F.fin 0) v0 i)
    let K1 := fun i =>
      smulL (F.fin dt) (a (F.fin (1 / 2 * dt)) (fun j => add3 (v0 j) (smulL (F.fin (1 / 2 : ℚ)) (K0 j))) i)
    let K2 := fun i =>
      smulL (F.fin dt) (a (F.fin (1 / 2 * dt)) (fun j => add3 (v0 j) (smulL (F.fin (1 / 2 : ℚ)) (K1 j))) i)
    let K3 := fun i => smulL (F.fin dt) (a (F.fin dt) (fun j => add3 (v0 j) (K2 j)) i)
    Except.ok (fun i =>
      add3 (add3 (add3 (smulL (F.fin (1 / 6 : ℚ)) (K0 i)) (smulL (F.fin (1 / 3 : ℚ)) (K1 i)))
        (smulL (F.fin (1 / 3 : ℚ)) (K2 i))) (smulL (F.fin (1 / 6 : ℚ)) (K3 i)))
  else Except.error DRError.notImpl

/-- Extract the `x` row `i` from a driver result, for concrete
comparisons. -/
def okX (res : Except DRError (DRState V E)) (i : Fin V) : Option Vec3 :=
  match res with
  | Except.ok s => some (s.x i)
  | Except.error _ => none

/-- Whether a driver result is a normal return. -/
def isOkB (res : Except DRError (DRState V E)) : Bool :=
  match res with
  | Except.ok _ => true
  | Except.error _ => false

/-- The inputs of `smooth_centroid`: the vertex dictionary (key list in
insertion order plus coordinates), the adjacency dictionary, the fixed list
and the damping factor. -/
structure SmoothInput where
  keys : List ℕ
  pos : ℕ → ℚ × ℚ × ℚ
  adjacency : ℕ → List ℕ
  fixed : List ℕ
  damping : ℚ

/-- Modelled from the spec: `centroid_points` is not under `src/`; it is the
arithmetic mean of a list of points (§4.8 "the arithmetic mean of its
neighbors' positions"). -/
def centroid_points (pts : List (ℚ × ℚ × ℚ)) : ℚ × ℚ × ℚ :=
  let n : ℚ := pts.length
  ((pts.map (fun p => p.1)).sum / n,
   (pts.map (fun p => p.2.1)).sum / n,
   (pts.map (fun p => p.2.2)).sum / n)

/-- The damped move `new = old + damping * (target - old)`, per
coordinate. -/
def smoothMove (damping : ℚ) (point target : ℚ × ℚ × ℚ) : ℚ × ℚ × ℚ :=
  (point.1 + damping * (target.1 - point.1),
   point.2.1 + damping * (target.2.1 - point.2.1),
   point.2.2 + damping * (target.2.2 - point.2.2))

/-- One pass of `smooth_centroid` as the source executes it: `vertices_0` is
`{key: xyz for key, xyz in iter(vertices.items())}`, a shallow copy whose
coordinate lists alias the live ones, so reading a neighbour through
`vertices_0` observes coordinates already updated earlier in the same pass
(the vertices are visited in dictionary insertion order). -/
def smooth_centroid_pass (inp : SmoothInput) (vs : ℕ → ℚ × ℚ × ℚ) : ℕ → ℚ × ℚ × ℚ :=
  inp.keys.foldl
    (fun cur key =>
      if key ∈ inp.fixed then cur
      else
        let c := centroid_points ((inp.adjacency key).map cur)
        let p := cur key
        fun k => if k = key then smoothMove inp.damping p c else cur k)
    vs

/-- `smooth_centroid(vertices, adjacency, fixed, kmax, damping)`: `kmax`
passes of the in-place update. -/
def smooth_centroid (inp : SmoothInput) : ℕ → ℕ → ℚ × ℚ × ℚ
  | 0 => inp.pos
  | k + 1 => smooth_centroid_pass inp (smooth_centroid inp k)

/-- Modelled from the spec: one pass reading every neighbour position from a
frozen snapshot of the start of the pass (a Jacobi update), as §4.8
describes all three smoothers. -/
def smooth_centroid_jacobi_pass (inp : SmoothInput) (vs : ℕ → ℚ × ℚ × ℚ) : ℕ → ℚ × ℚ × ℚ :=
  inp.keys.foldl
    (fun cur key =>
      if key ∈ inp.fixed then cur
      else
        let c := centroid_points ((inp.adjacency key).map vs)
        let p := vs key
        fun k => if k = key then smoothMove inp.damping p c else cur k)
    vs

/-- Modelled from the spec: the Jacobi variant of `smooth_centroid`. -/
def smooth_centroid_jacobi (inp : SmoothInput) : ℕ → ℕ → ℚ × ℚ × ℚ
  | 0 => inp.pos
  | k + 1 => smooth_centroid_jacobi_pass inp (smooth_centroid_jacobi inp k)

/-- The trivial fallback for non-perfect-square roots; never consulted on
the concrete inputs below (all of which stay on the x-axis, so every row
norm is the square root of a perfect rational square). -/
def sqZero : ℚ → ℚ := fun _ => 0

/-- Single bar under load: vertex 0 fixed at the origin, vertex 1 free at
(2,0,0), one edge, load (1,0,0) on the free vertex, `qpre = [1]`, all other
edge attributes zero. -/
def exBar : DRInput 2 1 where
  vertices := ![(0, 0, 0), (2, 0, 0)]
  edges := ![(0, 1)]
  fixed := {0}
  loads := ![(0, 0, 0), (1, 0, 0)]
  qpre := ![1]
  fpre := ![0]
  lpre := ![0]
  linit := ![0]
  Emod := ![0]
  radius := ![0]

/-- A collapsed edge with a prescribed force: both endpoints at the origin
(so `l = 0`) and `fpre = [1]`. -/
def exZeroLen : DRInput 2 1 where
  vertices := ![(0, 0, 0), (0, 0, 0)]
  edges := ![(0, 1)]
  fixed := {0}
  loads := ![(0, 0, 0), (0, 0, 0)]
  qpre := ![0]
  fpre := ![1]
  lpre := ![0]
  linit := ![0]
  Emod := ![0]
  radius := ![0]

/-- The zero-load, zero-prestress configuration of §8: one bar, vertex 0
fixed, vertex 1 free, every load and edge attribute zero. -/
def exZeroConf : DRInput 2 1 where
  vertices := ![(0, 0, 0), (1, 0, 0)]
  edges := ![(0, 1)]
  fixed := {0}
  loads := ![(0, 0, 0), (0, 0, 0)]
  qpre := ![0]
  fpre := ![0]
  lpre := ![0]
  linit := ![0]
  Emod := ![0]
  radius := ![0]

/-- The zero configuration with every vertex fixed. -/
def exZeroConfAllFixed : DRInput 2 1 :=
  { exZeroConf with fixed := Finset.univ }

/-- A two-edge path whose `linit` has one zero entry among nonzero ones, so
the autofill does not fire and the mass formula divides by zero. -/
def exLinitZero : DRInput 3 2 where
  vertices := ![(0, 0, 0), (1, 0, 0), (3, 0, 0)]
  edges := ![(0, 1), (1, 2)]
  fixed := {0}
  loads := ![(0, 0, 0), (0, 0, 0), (0, 0, 0)]
  qpre := ![0, 0]
  fpre := ![0, 0]
  lpre := ![0, 0]
  linit := ![1, 0]
  Emod := ![0, 0]
  radius := ![0, 0]

/-- `exBar` with the constant vector (5,0,0) added to every vertex position
and every load row, as claim C8 prescribes. -/
def exBarShifted : DRInput 2 1 :=
  { exBar with
      vertices := ![(5, 0, 0), (7, 0, 0)]
      loads := ![(5, 0, 0), (6, 0, 0)] }

/-- Add a constant vector to every vertex position of the input (loads
unchanged). -/
def shiftVerts (inp : DRInput V E) (t : ℚ × ℚ × ℚ) : DRInput V E :=
  { inp with
      vertices := fun i =>
        ((inp.vertices i).1 + t.1, (inp.vertices i).2.1 + t.2.1, (inp.vertices i).2.2 + t.2.2) }

/-- A path of three collinear vertices 0 — 1 — 2 at x = 0, 3, 12, none
fixed, damping 1/2, visited in insertion order 0, 1, 2. -/
def exSmooth : SmoothInput where
  keys := [0, 1, 2]
  pos := fun k => if k = 0 then (0, 0, 0) else if k = 1 then (3, 0, 0) else (12, 0, 0)
  adjacency := fun k => if k = 0 then [1] else if k = 1 then [0, 2] else [1]
  fixed := []
  damping := 1 / 2

/-- The initial state of the single-bar network, used as a concrete context
for exercising `rk` directly. -/
def exRKstate : DRState 2 1 := initState exBar sqZero

/-- The assembled force densities of iteration 0 on the single-bar
network. -/
def exRKq : Fin 1 → F := assembleQ exBar sqZero exRKstate.l exRKstate.f

/-- The fictitious masses of iteration 0 on the single-bar network. -/
def exRKmass : Fin 2 → F := massOf exBar {} sqZero exRKstate.l exRKstate.f

/-- A nonzero starting velocity for the free vertex, exposing the stage
abscissae of `rk`. -/
def exRKv0 : Fin 2 → Vec3 := fun i => if i = 1 then (F.fin 1, F.fin 0, F.fin 0) else zero3

/-- Extract the x-component of row `i` of a velocity-increment result. -/
def okDv (res : Except DRError (Fin V → Vec3)) (i : Fin V) : Option F :=
  match res with
  | Except.ok d => some (d i).1
  | Except.error _ => none

/-- The Butcher tableau the source's `rk` actually implements, with the `K`
table lookups resolved to their constants: for `steps = 1` the return value
is `a(dt, v0)` itself (abscissa `dt`, no `dt` factor); for `steps = 2` the
stages are `K0 = dt·a(0, v0)`, `K1 = dt·a(dt/2, v0 + K0/2)` combined as
`0·K0 + 1·K1`; for `steps = 4` the abscissae are `0, dt/2, dt/2, dt` with
increments `K0/2`, `0·K0 + K1/2`, `0·K0 + 0·K1 + K2` and weights
`1/6, 1/3, 1/3, 1/6`; any other stage count is a `NotImplementedError`. -/
def rkAmended (inp : DRInput V E) (opts : DROptions) (q : Fin E → F) (massv : Fin V → F)
    (rstate : Fin V → Vec3) (x0 v0 : Fin V → Vec3) (steps : ℕ) :
    Except DRError (Fin V → Vec3) :=
  let dt := opts.dt
  let a := accel inp opts q massv rstate x0
  if steps = 1 then Except.ok (a (F.fin dt) v0)
  else if steps = 2 then
    let K0 := fun i => smulL (F.fin dt) (a (F.fin 0) v0 i)
    let K1 := fun i =>
      smulL (F.fin dt) (a (F.fin (1 / 2 * dt))
        (fun j => add3 (v0 j) (smulL (F.fin (1 / 2 : ℚ)) (K0 j))) i)
    Except.ok (fun i => add3 (smulL (F.fin (0 : ℚ)) (K0 i)) (smulL (F.fin (1 : ℚ)) (K1 i)))
  else if steps = 4 then
    let K0 := fun i => smulL (F.fin dt) (a (F.fin 0) v0 i)
    let K1 := fun i =>
      smulL (F.fin dt) (a (F.fin (1 / 2 * dt))
        (fun j => add3 (v0 j) (smulL (F.fin (1 / 2 : ℚ)) (K0 j))) i)
    let K2 := fun i =>
      smulL (F.fin dt) (a (F.fin (1 / 2 * dt))
        (fun j => add3 (add3 (v0 j) (smulL (F.fin (0 : ℚ)) (K0 j)))
          (smulL (F.fin (1 / 2 : ℚ)) (K1 j))) i)
    let K3 := fun i =>
      smulL (F.fin dt) (a (F.fin dt)
        (fun j => add3 (add3 (add3 (v0 j) (smulL (F.fin (0 : ℚ)) (K0 j)))
          (smulL (F.fin (0 : ℚ)) (K1 j))) (smulL (F.fin (1 : ℚ)) (K2 j))) i)
    Except.ok (fun i =>
      add3 (add3 (add3 (smulL (F.fin (1 / 6 : ℚ)) (K0 i)) (smulL (F.fin (1 / 3 : ℚ)) (K1 i)))
        (smulL (F.fin (1 / 3 : ℚ)) (K2 i))) (smulL (F.fin (1 / 6 : ℚ)) (K3 i)))
  else Except.error DRError.notImpl

/-- The rational value of a finite float (0 on non-finite values). -/
def qval : F → ℚ
  | F.fin a => a
  | _ => 0

/-- The rational value of the materialized entry `D[i, k]` when all force
densities are finite. -/
def dentQ (inp : DRInput V E) (q : Fin E → F) (i k : Fin V) : ℚ :=
  ∑ e in Finset.univ.filter (fun e => inc inp e i ∧ inc inp e k),
    cE inp e i * qval (q e) * cE inp e k

/-- The state of a run whose positions are shifted rowwise by the constant
vector `t` while velocities, residuals, force densities, lengths and forces
agree with the unshifted run. -/
def shiftState (t : ℚ × ℚ × ℚ) (s : DRState V E) : DRState V E :=
  ⟨fun i => add3 (s.x i) (finV3 t), s.v, s.r, s.q, s.l, s.f⟩

/-- A row whose three components are all finite. -/
def finV (v : Vec3) : Prop := ∃ a b c, v = (F.fin a, F.fin b, F.fin c)

theorem addF_comm (a b : F) : addF a b = addF b a := by
  cases a <;> cases b <;> simp [addF] <;> ring

theorem addF_assoc (a b c : F) : addF (addF a b) c = addF a (addF b c) := by
  cases a <;> cases b <;> cases c <;> simp [addF] <;> ring

theorem addF_zero (a : F) : addF a (F.fin 0) = a := by
  cases a <;> simp [addF]

theorem zero_addF (a : F) : addF (F.fin 0) a = a := by
  cases a <;> simp [addF]

theorem addF_eq_add (a b : F) : addF a b = a + b := rfl

theorem zeroF_eq_zero : F.fin 0 = 0 := rfl

theorem finHom_apply (q : ℚ) : finHom q = F.fin q := rfl

theorem cleanF_isFinite (x : F) : (cleanF x).isFinite = true := by
  cases x <;> simp [cleanF, F.isFinite]

theorem mulF_fin_left_isFinite (a : ℚ) (x : F) (h : x.isFinite = true) :
    (mulF (F.fin a) x).isFinite = true := by
  cases x <;> simp_all [F.isFinite, mulF]

/-- Multiplying a finite value by a shifted argument distributes the shift:
`d * (x + t) = d * x + d * t`, for every float `x` and finite `d`, `t`. -/
theorem mulF_fin_addF_fin (d t : ℚ) (x : F) :
    mulF (F.fin d) (addF x (F.fin t)) = addF (mulF (F.fin d) x) (F.fin (d * t)) := by
  cases x with
  | fin a => simp [mulF, addF]; ring
  | pinf =>
      rcases lt_trichotomy d 0 with h | h | h
      · simp [mulF, addF, h, not_lt.mpr (le_of_lt h)]
      · simp [mulF, addF, h]
      · simp [mulF, addF, h, not_lt.mpr (le_of_lt h)]
  | ninf =>
      rcases lt_trichotomy d 0 with h | h | h
      · simp [mulF, addF, h, not_lt.mpr (le_of_lt h)]
      · simp [mulF, addF, h]
      · simp [mulF, addF, h, not_lt.mpr (le_of_lt h)]
  | nan => simp [mulF, addF]

/-- Subtraction is invariant under adding the same finite shift to both
sides, for all float values. -/
theorem subF_addF_fin (a b : F) (t : ℚ) :
    subF (addF a (F.fin t)) (addF b (F.fin t)) = subF a b := by
  cases a <;> cases b <;> simp [subF, addF, negF] <;> ring

theorem mulF_one_left (x : F) : mulF (F.fin 1) x = x := by
  cases x <;> simp [mulF]

theorem finV_finV3 (p : ℚ × ℚ × ℚ) : finV (finV3 p) := ⟨p.1, p.2.1, p.2.2, rfl⟩

theorem finV_add3 {a b : Vec3} (ha : finV a) (hb : finV b) : finV (add3 a b) := by
  obtain ⟨a1, a2, a3, rfl⟩ := ha
  obtain ⟨b1, b2, b3, rfl⟩ := hb
  exact ⟨a1 + b1, a2 + b2, a3 + b3, rfl⟩

theorem finV_zero : finV (0 : Vec3) := ⟨0, 0, 0, rfl⟩

theorem add3_eq_add (a b : Vec3) : add3 a b = a + b := rfl

theorem finV_smulL {v : Vec3} (a : ℚ) (hv : finV v) : finV (smulL (F.fin a) v) := by
  obtain ⟨v1, v2, v3, rfl⟩ := hv
  exact ⟨a * v1, a * v2, a * v3, rfl⟩

theorem finV_sum {ι : Type} (s : Finset ι) (g : ι → Vec3) (h : ∀ i ∈ s, finV (g i)) :
    finV (∑ i in s, g i) := by
  refine Finset.sum_induction g finV (fun a b ha hb => ?_) finV_zero h
  have := finV_add3 ha hb
  rwa [add3_eq_add] at this

theorem sqlen_finV {v : Vec3} (hv : finV v) : ∃ s : ℚ, 0 ≤ s ∧ sqlen v = F.fin s := by
  obtain ⟨a, b, c, rfl⟩ := hv
  exact ⟨a * a + b * b + c * c,
    add_nonneg (add_nonneg (mul_self_nonneg a) (mul_self_nonneg b)) (mul_self_nonneg c), rfl⟩

theorem sqrtF_fin_of_nonneg (sq : ℚ → ℚ) {s : ℚ} (h : 0 ≤ s) :
    ∃ r : ℚ, sqrtF sq (F.fin s) = F.fin r := by
  simp only [sqrtF]
  rw [if_neg (not_lt.mpr h)]
  cases ratSqrt s with
  | none => exact ⟨sq s, rfl⟩
  | some r => exact ⟨r, rfl⟩

/-- The initial edge lengths from rational coordinates are always finite
values. -/
theorem l0_fin (inp : DRInput V E) (sq : ℚ → ℚ) (e : Fin E) :
    ∃ a : ℚ, l0 inp sq e = F.fin a := by
  have hfin : finV (C_dot inp (fun i => finV3 (inp.vertices i)) e) :=
    finV_sum _ _ (fun k _ => finV_smulL _ (finV_finV3 _))
  obtain ⟨s, hs, hsq⟩ := sqlen_finV hfin
  obtain ⟨r, hr⟩ := sqrtF_fin_of_nonneg sq hs
  exact ⟨r, by rw [l0, normrow, hsq, hr]⟩

theorem divF_fin_zero (a : ℚ) : (divF (F.fin a) (F.fin 0)).isFinite = false := by
  by_cases h : a = 0
  · simp [divF, h, F.isFinite]
  · by_cases h2 : 0 < a <;> simp [divF, h, h2, F.isFinite]

theorem addF_nonfinite_left {x : F} (y : F) (hx : x.isFinite = false)
    (hy : y.isFinite = true) : (addF x y).isFinite = false := by
  cases x <;> cases y <;> simp_all [addF, F.isFinite]

theorem addF_fin_nonfinite (a : ℚ) {x : F} (hx : x.isFinite = false) :
    (addF (F.fin a) x).isFinite = false := by
  cases x <;> simp_all [addF, F.isFinite]

theorem cleanF_of_finite {x : F} (h : x.isFinite = true) : cleanF x = x := by
  simp [cleanF, h]

theorem cleanF_of_nonfinite {x : F} (h : x.isFinite = false) : cleanF x = F.fin 0 := by
  simp [cleanF, h]

theorem divF_fin_fin_ne (a : ℚ) {b : ℚ} (hb : b ≠ 0) :
    divF (F.fin a) (F.fin b) = F.fin (a / b) := by
  simp [divF, hb]

unseal Rat.add Rat.mul Rat.inv Rat.sub in
/-- C1 (counterexample to the claim as stated): on a collapsed edge with a
prescribed force (`l[0] = 0`, `fpre = [1]`), the entry `q[0]` at the end of
iteration 0 of `dr_numpy` is `+Inf`, not finite — the `fpre / l`
contribution of a zero-length row is not set to zero. -/
theorem C1_counterexample :
    ((iterN exZeroLen {} sqZero 1 (initState exZeroLen sqZero)).q 0).isFinite = false := by
  decide

/-- C1 (amended): in the edge-law assembly only the `q_lpre` and `q_EA`
contributions are cleaned per-row before summation (after cleaning they are
always finite); the `q_fpre = fpre / l` contribution is not cleaned, and on
every row with `l[e] = 0` the assembled `q[e]` is non-finite. -/
theorem C1_sanitation (inp : DRInput V E) (sq : ℚ → ℚ) (l f : Fin E → F) (e : Fin E)
    (h : l e = F.fin 0) :
    (q_lpre inp f e).isFinite = true ∧ (q_EA inp sq l e).isFinite = true ∧
    (assembleQ inp sq l f e).isFinite = false := by
  refine ⟨cleanF_isFinite _, cleanF_isFinite _, ?_⟩
  have hqf : (q_fpre inp l e).isFinite = false := by
    unfold q_fpre
    rw [h]
    exact divF_fin_zero _
  exact addF_nonfinite_left _
    (addF_nonfinite_left _ (addF_fin_nonfinite _ hqf) (cleanF_isFinite _))
    (cleanF_isFinite _)

unseal Rat.add Rat.mul Rat.inv Rat.sub in
/-- C1 (witness): the amended sanitation theorem applied to the concrete
collapsed-edge input at edge 0. -/
theorem C1_sanitation_witness :
    (initState exZeroLen sqZero).l 0 = F.fin 0 ∧
    ((q_lpre exZeroLen (initState exZeroLen sqZero).f 0).isFinite = true ∧
     (q_EA exZeroLen sqZero (initState exZeroLen sqZero).l 0).isFinite = true ∧
     (assembleQ exZeroLen sqZero (initState exZeroLen sqZero).l
        (initState exZeroLen sqZero).f 0).isFinite = false) :=
  ⟨by decide, C1_sanitation exZeroLen sqZero _ _ 0 (by decide)⟩

/-- C10: before the first iteration `q` is seeded to all ones and
`f = q * l` equals the current edge lengths; consequently the `q_lpre`
contribution of iteration `k = 0` equals `l / lpre` per row with
`lpre[e] = 0` rows cleaned to zero, and it is unchanged under any
modification of the prescribed force densities `qpre` and prescribed forces
`fpre`. -/
theorem C10_initial_seeding (inp : DRInput V E) (sq : ℚ → ℚ) (e : Fin E)
    (qp fp : Fin E → ℚ) :
    (initState inp sq).q e = F.fin 1 ∧
    (initState inp sq).f e = (initState inp sq).l e ∧
    q_lpre inp (initState inp sq).f e =
      (if inp.lpre e = 0 then F.fin 0
       else divF ((initState inp sq).l e) (F.fin (inp.lpre e))) ∧
    q_lpre { inp with qpre := qp, fpre := fp }
        (initState { inp with qpre := qp, fpre := fp } sq).f e =
      q_lpre inp (initState inp sq).f e := by
  obtain ⟨a, ha⟩ := l0_fin inp sq e
  have hf : (initState inp sq).f e = (initState inp sq).l e := by
    show mulF (F.fin 1) (l0 inp sq e) = l0 inp sq e
    exact mulF_one_left _
  have hql : q_lpre inp (initState inp sq).f e =
      (if inp.lpre e = 0 then F.fin 0
       else divF ((initState inp sq).l e) (F.fin (inp.lpre e))) := by
    unfold q_lpre
    rw [show (initState inp sq).f e = F.fin a from hf.trans ha]
    by_cases h0 : inp.lpre e = 0
    · rw [if_pos h0, h0, cleanF_of_nonfinite (divF_fin_zero a)]
    · rw [if_neg h0, divF_fin_fin_ne a h0,
        cleanF_of_finite (by rfl : (F.fin (a / inp.lpre e)).isFinite = true),
        show (initState inp sq).l e = F.fin a from ha, divF_fin_fin_ne a h0]
  exact ⟨rfl, hf, hql, rfl⟩

/-- One iteration never writes the `x` or `v` row of a fixed vertex. -/
theorem iterStep_fixed (inp : DRInput V E) (opts : DROptions) (sq : ℚ → ℚ)
    (s : DRState V E) (i : Fin V) (h : i ∈ inp.fixed) :
    (iterStep inp opts sq s).x i = s.x i ∧ (iterStep inp opts sq s).v i = s.v i := by
  have hnf : ¬ isFree inp i := by simp [isFree, h]
  constructor
  · show (if isFree inp i then _ else s.x i) = s.x i
    exact if_neg hnf
  · show (if isFree inp i then _ else s.v i) = s.v i
    exact if_neg hnf

/-- Any number of iterations preserves the `x` and `v` rows of the fixed
vertices. -/
theorem iterN_fixed (inp : DRInput V E) (opts : DROptions) (sq : ℚ → ℚ) (k : ℕ)
    (s : DRState V E) (i : Fin V) (h : i ∈ inp.fixed) :
    (iterN inp opts sq k s).x i = s.x i ∧ (iterN inp opts sq k s).v i = s.v i := by
  induction k generalizing s with
  | zero => exact ⟨rfl, rfl⟩
  | succ k ih =>
      obtain ⟨hx, hv⟩ := ih (iterStep inp opts sq s)
      obtain ⟨hx1, hv1⟩ := iterStep_fixed inp opts sq s i h
      exact ⟨by rw [iterN, hx, hx1], by rw [iterN, hv, hv1]⟩

unseal Rat.add Rat.mul Rat.inv Rat.sub in
/-- C2 (counterexample to the claim as stated): the residual row of the
fixed vertex 0 of the single-bar network starts at zero but is nonzero
after one iteration: line 274 of the source overwrites every row of `r`,
fixed rows included. -/
theorem C2_counterexample :
    (0 : Fin 2) ∈ exBar.fixed ∧ (initState exBar sqZero).r 0 = zero3 ∧
    ((iterN exBar {} sqZero 1 (initState exBar sqZero)).r 0).1 ≠ F.fin 0 := by
  decide

/-- C2 (amended): for every input and every iteration count, the rows of
`x` at indices in `fixed` equal the caller's positions and the rows of `v`
at indices in `fixed` stay zero (the rows of `r`, however, are overwritten
each iteration by the full residual `p - Ct·Q·u`, which is generally
nonzero at fixed vertices). -/
theorem C2_fixed_rows (inp : DRInput V E) (opts : DROptions) (sq : ℚ → ℚ) (k : ℕ)
    (i : Fin V) (h : i ∈ inp.fixed) :
    (iterN inp opts sq k (initState inp sq)).x i = finV3 (inp.vertices i) ∧
    (iterN inp opts sq k (initState inp sq)).v i = zero3 :=
  iterN_fixed inp opts sq k (initState inp sq) i h

/-- C2 (witness): the fixed-row preservation applied to the single-bar
network after 3 iterations at the fixed vertex 0. -/
theorem C2_fixed_rows_witness :
    (0 : Fin 2) ∈ exBar.fixed ∧
    ((iterN exBar {} sqZero 3 (initState exBar sqZero)).x 0 = finV3 (exBar.vertices 0) ∧
     (iterN exBar {} sqZero 3 (initState exBar sqZero)).v 0 = zero3) :=
  ⟨by decide, C2_fixed_rows exBar {} sqZero 3 0 (by decide)⟩

unseal Rat.add Rat.mul Rat.inv Rat.sub in
/-- C3 (counterexample to the claim as stated): on the zero-load,
zero-prestress single-bar network with one free vertex, every fictitious
mass is zero, the first RK stage computes `0/0 = NaN`, and after one
iteration the free vertex's velocity and position are NaN — the network is
not motionless. -/
theorem C3_counterexample :
    (1 : Fin 2) ∉ exZeroConf.fixed ∧
    ((iterN exZeroConf {} sqZero 1 (initState exZeroConf sqZero)).v 1).1 ≠ F.fin 0 ∧
    ((iterN exZeroConf {} sqZero 1 (initState exZeroConf sqZero)).x 1).1 ≠ F.fin 1 := by
  decide

/-- C3 (amended): with loads, qpre, fpre, lpre, linit and EA all zero and
every vertex fixed, the network is motionless: after any number of
iterations the positions equal the input coordinates and the velocities stay
zero (with any free vertex, the zero configuration instead produces NaN
velocities through the zero fictitious mass, as the counterexample shows). -/
theorem C3_zero_conf_motionless (inp : DRInput V E) (opts : DROptions) (sq : ℚ → ℚ)
    (k : ℕ) (i : Fin V)
    (hfix : inp.fixed = Finset.univ)
    (hload : ∀ j, inp.loads j = (0, 0, 0)) (hq : ∀ e, inp.qpre e = 0)
    (hf : ∀ e, inp.fpre e = 0) (hl : ∀ e, inp.lpre e = 0)
    (hli : ∀ e, inp.linit e = 0) (hE : ∀ e, EAOf inp e = 0) :
    (iterN inp opts sq k (initState inp sq)).x i = finV3 (inp.vertices i) ∧
    (iterN inp opts sq k (initState inp sq)).v i = zero3 :=
  iterN_fixed inp opts sq k (initState inp sq) i (hfix ▸ Finset.mem_univ i)

unseal Rat.add Rat.mul Rat.inv Rat.sub in
/-- C3 (witness): the amended motionless theorem applied to the all-fixed
zero configuration after 4 iterations at vertex 1. -/
theorem C3_zero_conf_motionless_witness :
    exZeroConfAllFixed.fixed = Finset.univ ∧
    ((iterN exZeroConfAllFixed {} sqZero 4 (initState exZeroConfAllFixed sqZero)).x 1 =
      finV3 (exZeroConfAllFixed.vertices 1) ∧
     (iterN exZeroConfAllFixed {} sqZero 4 (initState exZeroConfAllFixed sqZero)).v 1 = zero3) :=
  ⟨by decide,
   C3_zero_conf_motionless exZeroConfAllFixed {} sqZero 4 1 (by decide) (by decide)
     (by decide) (by decide) (by decide) (by decide) (by decide)⟩

unseal Rat.add Rat.mul Rat.inv Rat.sub in
/-- C4 (counterexample to the claim as stated): on the single-bar network
with `kmax = 1`, passing `steps = 1` gives exactly the same result as
`steps = 4` — the option is ignored — while a driver that respected the
`steps` option (as the spec prescribes) would produce a different free
vertex position. -/
theorem C4_counterexample :
    okX (dr_numpy exBar { kmax := 1, steps := 1 } sqZero) 1 =
      okX (dr_numpy exBar { kmax := 1, steps := 4 } sqZero) 1 ∧
    okX (dr_numpySpec exBar { kmax := 1, steps := 1 } sqZero) 1 ≠
      okX (dr_numpy exBar { kmax := 1, steps := 1 } sqZero) 1 := by
  decide

/-- C4 (amended): `steps` is not a recognized option of the driver: the
source never reads it from `kwargs` and calls `rk` with the literal
`steps=4`, so the result of `dr_numpy` is identical for every value of the
caller's `steps` option (the `rk` helper itself supports 1, 2 and 4). -/
theorem iterStep_steps_irrel (inp : DRInput V E) (opts : DROptions) (st : ℕ)
    (sq : ℚ → ℚ) (s : DRState V E) :
    iterStep inp { opts with steps := st } sq s = iterStep inp opts sq s := rfl

theorem drLoop_steps_irrel (inp : DRInput V E) (opts : DROptions) (st : ℕ)
    (sq : ℚ → ℚ) (n : ℕ) : ∀ s, drLoop inp { opts with steps := st } sq n s =
      drLoop inp opts sq n s := by
  induction n with
  | zero => intro s; rfl
  | succ n ih =>
      intro s
      rw [drLoop, drLoop, iterStep_steps_irrel, ih]
      rfl

theorem C4_steps_ignored (inp : DRInput V E) (opts : DROptions) (sq : ℚ → ℚ)
    (s1 s2 : ℕ) :
    dr_numpy inp { opts with steps := s1 } sq = dr_numpy inp { opts with steps := s2 } sq := by
  unfold dr_numpy
  by_cases h : (1 : ℚ) + opts.c * (1 / 2) = 0
  · rw [if_pos h, if_pos h]
  · rw [if_neg h, if_neg h]
    exact congrArg Except.ok ((drLoop_steps_irrel inp opts s1 sq opts.kmax _).trans
      (drLoop_steps_irrel inp opts s2 sq opts.kmax _).symm)

unseal Rat.add Rat.mul Rat.inv Rat.sub in
/-- C5 (counterexample to the claim as stated): on a concrete context with
a nonzero starting velocity, the source's `rk` with `steps = 1` differs
from the spec's `Δv = dt·a(0, v₀)` (the source returns `a(dt, v₀)`: the
abscissa is `dt`, not 0, and the `dt` factor is missing), and with
`steps = 2` it differs from the spec's `K₁ = dt·a(dt, v₀ + K₀)` (the source
uses `dt·a(dt/2, v₀ + K₀/2)`). -/
theorem C5_counterexample :
    okDv (rk exBar {} exRKq exRKmass exRKstate.r exRKstate.x exRKv0 1) 1 ≠
      okDv (rkSpec exBar {} exRKq exRKmass exRKstate.r exRKstate.x exRKv0 1) 1 ∧
    okDv (rk exBar {} exRKq exRKmass exRKstate.r exRKstate.x exRKv0 2) 1 ≠
      okDv (rkSpec exBar {} exRKq exRKmass exRKstate.r exRKstate.x exRKv0 2) 1 := by
  decide

/-- C5 (amended): the `rk` helper implements, for every input, the tableau
of `rkAmended`: for `steps = 1` it returns `a(dt, v₀)` directly (abscissa
`dt`, no `dt` factor); for `steps = 2` the stages are `K₀ = dt·a(0, v₀)` and
`K₁ = dt·a(dt/2, v₀ + K₀/2)` combined as `0·K₀ + 1·K₁`; for `steps = 4` the
four stages use abscissae `0, dt/2, dt/2, dt` with the code's stated
combinations and weights `1/6, 1/3, 1/3, 1/6`; every other value of `steps`
raises `NotImplementedError`. -/
theorem C5_rk_stages (inp : DRInput V E) (opts : DROptions) (q : Fin E → F)
    (massv : Fin V → F) (rstate : Fin V → Vec3) (x0 v0 : Fin V → Vec3) (s : ℕ)
    (h1 : s ≠ 1) (h2 : s ≠ 2) (h4 : s ≠ 4) :
    (∀ st, rk inp opts q massv rstate x0 v0 st = rkAmended inp opts q massv rstate x0 v0 st) ∧
    rk inp opts q massv rstate x0 v0 s = Except.error DRError.notImpl := by
  constructor
  · intro st
    unfold rk rkAmended
    simp only [show Kc 0 0 = 0 from rfl, show Kc 1 0 = 1 / 2 from rfl,
      show Kc 1 1 = 1 / 2 from rfl, show Kc 2 0 = 1 / 2 from rfl,
      show Kc 2 1 = 0 from rfl, show Kc 2 2 = 1 / 2 from rfl,
      show Kc 3 0 = 1 from rfl, show Kc 3 1 = 0 from rfl,
      show Kc 3 2 = 0 from rfl, show Kc 3 3 = 1 from rfl, zero_mul, one_mul]
  · unfold rk
    rw [if_neg h1, if_neg h2, if_neg h4]

/-- C5 (witness): the amended tableau theorem applied to the concrete
single-bar context with the unsupported stage count 3. -/
theorem C5_rk_stages_witness :
    (3 : ℕ) ≠ 1 ∧
    ((∀ st, rk exBar {} exRKq exRKmass exRKstate.r exRKstate.x exRKv0 st =
        rkAmended exBar {} exRKq exRKmass exRKstate.r exRKstate.x exRKv0 st) ∧
     rk exBar {} exRKq exRKmass exRKstate.r exRKstate.x exRKv0 3 =
       Except.error DRError.notImpl) :=
  ⟨by decide,
   C5_rk_stages exBar {} exRKq exRKmass exRKstate.r exRKstate.x exRKv0 3
     (by decide) (by decide) (by decide)⟩

unseal Rat.add Rat.mul Rat.inv Rat.sub in
/-- C6 (counterexample to the claim as stated): on a two-edge path with
`linit = [1, 0]` (not all zero, so no autofill) the `EA / linit` term of
edge 1 is `0/0 = NaN` and the fictitious mass of vertex 1 in iteration 0 is
non-finite. -/
theorem C6_counterexample :
    exLinitZero.linit 1 = 0 ∧ (¬ ∀ e, exLinitZero.linit e = 0) ∧
    (massOf exLinitZero {} sqZero (initState exLinitZero sqZero).l
      (initState exLinitZero sqZero).f 1).isFinite = false := by
  decide

/-- C6 (amended): the fictitious mass is
`0.5 · dt² · Cᵗ² · (qpre + q_fpre + q_lpre + EA/linit)` where the
`EA / linit` term is not cleaned: on every row with `linit[e] = 0` it is NaN
or ±Inf rather than zero, so a `linit` vector with some (but not all) zero
entries can make `mass` non-finite. -/
theorem C6_mass_no_sanitation (inp : DRInput V E) (opts : DROptions) (sq : ℚ → ℚ)
    (l f : Fin E → F) (i : Fin V) (e : Fin E) (h : linitF inp sq e = F.fin 0) :
    massOf inp opts sq l f i =
      mulF (F.fin (1 / 2 * opts.dt ^ 2))
        (∑ e' in Finset.univ.filter (fun e' => inc inp e' i),
          mulF (F.fin (cE inp e' i ^ 2))
            (addF (addF (addF (F.fin (inp.qpre e')) (q_fpre inp l e')) (q_lpre inp f e'))
              (divF (F.fin (EAOf inp e')) (linitF inp sq e')))) ∧
    (divF (F.fin (EAOf inp e)) (linitF inp sq e)).isFinite = false := by
  constructor
  · rfl
  · rw [h]
    exact divF_fin_zero _

unseal Rat.add Rat.mul Rat.inv Rat.sub in
/-- C6 (witness): the mass formula theorem applied to the concrete path
with `linit = [1, 0]` at vertex 1 and edge 1. -/
theorem C6_mass_no_sanitation_witness :
    linitF exLinitZero sqZero 1 = F.fin 0 ∧
    (massOf exLinitZero {} sqZero (initState exLinitZero sqZero).l
        (initState exLinitZero sqZero).f 1 =
      mulF (F.fin (1 / 2 * ({} : DROptions).dt ^ 2))
        (∑ e' in Finset.univ.filter (fun e' => inc exLinitZero e' 1),
          mulF (F.fin (cE exLinitZero e' 1 ^ 2))
            (addF (addF (addF (F.fin (exLinitZero.qpre e'))
                (q_fpre exLinitZero (initState exLinitZero sqZero).l e'))
                (q_lpre exLinitZero (initState exLinitZero sqZero).f e'))
              (divF (F.fin (EAOf exLinitZero e')) (linitF exLinitZero sqZero e')))) ∧
     (divF (F.fin (EAOf exLinitZero 1)) (linitF exLinitZero sqZero 1)).isFinite = false) :=
  ⟨by decide,
   C6_mass_no_sanitation exLinitZero {} sqZero (initState exLinitZero sqZero).l
     (initState exLinitZero sqZero).f 1 1 (by decide)⟩

unseal Rat.add Rat.mul Rat.inv Rat.sub in
/-- C7 (counterexample to the claim as stated): with the invalid option
`dt = -1 ≤ 0` the driver does not report any error — it runs its iteration
and returns normally, with the free vertex moved away from its input
position. -/
theorem C7_counterexample :
    isOkB (dr_numpy exBar { kmax := 1, dt := -1 } sqZero) = true ∧
    okX (dr_numpy exBar { kmax := 1, dt := -1 } sqZero) 1 ≠ some (finV3 (exBar.vertices 1)) := by
  decide

/-- C7 (amended): the driver performs no option validation at all: for
every option set whose damping parameter avoids the one genuine
pre-iteration failure (`1 + c/2 = 0`, a float `ZeroDivisionError` inside
`Coeff`), the call returns normally whatever `dt`, `kmax`, `tol1`, `tol2`,
`steps` are — `kmax < 1` merely runs zero iterations and returns the
initialized state. -/
theorem C7_no_option_validation (inp : DRInput V E) (opts : DROptions) (sq : ℚ → ℚ)
    (h : (1 : ℚ) + opts.c * (1 / 2) ≠ 0) :
    ∃ s, dr_numpy inp opts sq = Except.ok s :=
  ⟨drLoop inp opts sq opts.kmax (initState inp sq), by rw [dr_numpy, if_neg h]⟩

/-- C7 (witness): the no-validation theorem applied to the single bar with
the options `dt = -1`, `kmax = 0`, `tol1 = 0`, `tol2 = 0`, `c = -1`,
`steps = 7`, all of which the spec calls invalid. -/
theorem C7_no_option_validation_witness :
    (1 : ℚ) + (-1 : ℚ) * (1 / 2) ≠ 0 ∧
    ∃ s, dr_numpy exBar { kmax := 0, dt := -1, tol1 := 0, tol2 := 0, c := -1, steps := 7 }
      sqZero = Except.ok s :=
  ⟨by norm_num,
   C7_no_option_validation exBar
     { kmax := 0, dt := -1, tol1 := 0, tol2 := 0, c := -1, steps := 7 } sqZero (by norm_num)⟩

unseal Rat.add Rat.mul Rat.inv Rat.sub in
/-- C9 (code bug): one pass of `smooth_centroid` on the path 0 — 1 — 2 at
x-coordinates 0, 3, 12 (no fixed vertices, damping 1/2) moves vertex 1 to
x = 39/8, because the centroid of its neighbours is computed from vertex
0's position already updated in the same pass (the shallow-copied
`vertices_0` aliases the live coordinate lists); the Jacobi update the spec
describes gives x = 9/2. -/
theorem C9_gauss_seidel_not_jacobi :
    (smooth_centroid exSmooth 1 1).1 = 39 / 8 ∧
    (smooth_centroid_jacobi exSmooth 1 1).1 = 9 / 2 ∧
    smooth_centroid exSmooth 1 1 ≠ smooth_centroid_jacobi exSmooth 1 1 := by
  decide

theorem sum_fst {ι : Type} (s : Finset ι) (f : ι → Vec3) :
    (∑ i in s, f i).1 = ∑ i in s, (f i).1 :=
  map_sum (AddMonoidHom.fst F (F × F)) f s

theorem sum_snd1 {ι : Type} (s : Finset ι) (f : ι → Vec3) :
    (∑ i in s, f i).2.1 = ∑ i in s, (f i).2.1 :=
  map_sum ((AddMonoidHom.fst F F).comp (AddMonoidHom.snd F (F × F))) f s

theorem sum_snd2 {ι : Type} (s : Finset ι) (f : ι → Vec3) :
    (∑ i in s, f i).2.2 = ∑ i in s, (f i).2.2 :=
  map_sum ((AddMonoidHom.snd F F).comp (AddMonoidHom.snd F (F × F))) f s

theorem sum_finF {ι : Type} (s : Finset ι) (g : ι → ℚ) :
    ∑ i in s, F.fin (g i) = F.fin (∑ i in s, g i) :=
  (map_sum finHom g s).symm

theorem cE_zero_of_not_inc (inp : DRInput V E) (e : Fin E) (k : Fin V)
    (h : ¬ inc inp e k) : cE inp e k = 0 := by
  unfold inc at h
  push_neg at h
  simp [cE, h.1, h.2]

/-- The stored values of any row of the incidence operator sum to zero. -/
theorem sum_cE_filter (inp : DRInput V E) (e : Fin E) :
    ∑ k in Finset.univ.filter (fun k => inc inp e k), cE inp e k = 0 := by
  rw [Finset.sum_filter]
  have h1 : ∀ k ∈ Finset.univ, (if inc inp e k then cE inp e k else 0) = cE inp e k := by
    intro k _
    by_cases h : inc inp e k
    · rw [if_pos h]
    · rw [if_neg h, cE_zero_of_not_inc inp e k h]
  rw [Finset.sum_congr rfl h1]
  unfold cE
  rw [Finset.sum_add_distrib, Finset.sum_ite_eq' Finset.univ (inp.edges e).1 (fun _ => (-1 : ℚ)),
    Finset.sum_ite_eq' Finset.univ (inp.edges e).2 (fun _ => (1 : ℚ))]
  simp

/-- Splitting off a constant finite shift from a float linear combination
whose rational coefficients sum to zero. -/
theorem sumF_shift {ι : Type} (s : Finset ι) (coef : ι → ℚ) (xs : ι → F) (tc : ℚ)
    (hsum : ∑ i in s, coef i = 0) :
    ∑ i in s, mulF (F.fin (coef i)) (addF (xs i) (F.fin tc)) =
      ∑ i in s, mulF (F.fin (coef i)) (xs i) := by
  have h1 : ∀ i ∈ s, mulF (F.fin (coef i)) (addF (xs i) (F.fin tc)) =
      addF (mulF (F.fin (coef i)) (xs i)) (F.fin (coef i * tc)) :=
    fun i _ => mulF_fin_addF_fin (coef i) tc (xs i)
  rw [Finset.sum_congr rfl h1]
  have h2 : ∀ i ∈ s, addF (mulF (F.fin (coef i)) (xs i)) (F.fin (coef i * tc)) =
      mulF (F.fin (coef i)) (xs i) + F.fin (coef i * tc) := fun i _ => rfl
  rw [Finset.sum_congr rfl h2, Finset.sum_add_distrib, sum_finF, ← Finset.sum_mul, hsum,
    zero_mul]
  exact addF_zero _

/-- `C.dot` is invariant under shifting every vertex row by the same finite
constant vector: the stored coefficients of each row sum to zero. -/
theorem C_dot_shift (inp : DRInput V E) (x : Fin V → Vec3) (t : ℚ × ℚ × ℚ) (e : Fin E) :
    C_dot inp (fun k => add3 (x k) (finV3 t)) e = C_dot inp x e := by
  unfold C_dot
  have hc := sum_cE_filter inp e
  apply Prod.ext
  · rw [sum_fst, sum_fst]
    exact sumF_shift _ _ (fun k => (x k).1) t.1 hc
  · apply Prod.ext
    · rw [sum_snd1, sum_snd1]
      exact sumF_shift _ _ (fun k => (x k).2.1) t.2.1 hc
    · rw [sum_snd2, sum_snd2]
      exact sumF_shift _ _ (fun k => (x k).2.2) t.2.2 hc

theorem fin_qval {x : F} (h : x.isFinite = true) : x = F.fin (qval x) := by
  cases x <;> simp_all [F.isFinite, qval]

/-- With all force densities finite, the materialized `D` entry is the
finite value `dentQ`. -/
theorem Dent_fin (inp : DRInput V E) (q : Fin E → F)
    (hq : ∀ e, (q e).isFinite = true) (i k : Fin V) :
    Dent inp q i k = F.fin (dentQ inp q i k) := by
  unfold Dent dentQ
  rw [← sum_finF]
  refine Finset.sum_congr rfl (fun e _ => ?_)
  rw [show q e = F.fin (qval (q e)) from fin_qval (hq e)]
  rfl

/-- The rational entries of a row of `D` sum to zero: every edge
contributes `cE * q` at its two endpoint columns with opposite incidence
signs. -/
theorem dentQ_rowsum (inp : DRInput V E) (q : Fin E → F) (i : Fin V) :
    ∑ k in Finset.univ.filter (fun k => patD inp i k), dentQ inp q i k = 0 := by
  unfold dentQ
  rw [Finset.sum_filter]
  have h1 : ∀ k, (if patD inp i k then
      ∑ e in Finset.univ.filter (fun e => inc inp e i ∧ inc inp e k),
        cE inp e i * qval (q e) * cE inp e k else 0) =
      ∑ e in Finset.univ,
        (if inc inp e i ∧ inc inp e k then cE inp e i * qval (q e) * cE inp e k else 0) := by
    intro k
    by_cases h : patD inp i k
    · rw [if_pos h, Finset.sum_filter]
    · rw [if_neg h]
      exact (Finset.sum_eq_zero (fun e _ => if_neg (fun hik => h ⟨e, hik⟩))).symm
  rw [Finset.sum_congr rfl (fun k _ => h1 k), Finset.sum_comm]
  refine Finset.sum_eq_zero (fun e _ => ?_)
  by_cases hei : inc inp e i
  · have h2 : ∀ k, (if inc inp e i ∧ inc inp e k then
        cE inp e i * qval (q e) * cE inp e k else 0) =
        cE inp e i * qval (q e) * (if inc inp e k then cE inp e k else 0) := by
      intro k
      by_cases hk : inc inp e k
      · rw [if_pos ⟨hei, hk⟩, if_pos hk]
      · rw [if_neg (fun hand => hk hand.2), if_neg hk, mul_zero]
    rw [Finset.sum_congr rfl (fun k _ => h2 k), ← Finset.mul_sum, ← Finset.sum_filter,
      sum_cE_filter, mul_zero]
  · refine Finset.sum_eq_zero (fun k _ => ?_)
    rw [if_neg (fun hand => hei hand.1)]

/-- `D.dot` is invariant under shifting every vertex row by the same finite
constant vector, provided all force densities are finite (so the stored
entries are finite rationals with zero row sums). -/
theorem D_dot_shift (inp : DRInput V E) (q : Fin E → F)
    (hq : ∀ e, (q e).isFinite = true) (i : Fin V) (x : Fin V → Vec3) (t : ℚ × ℚ × ℚ) :
    D_dot inp q i (fun k => add3 (x k) (finV3 t)) = D_dot inp q i x := by
  unfold D_dot
  have hd : ∀ k ∈ Finset.univ.filter (fun k => patD inp i k),
      Dent inp q i k = F.fin (dentQ inp q i k) := fun k _ => Dent_fin inp q hq i k
  have hrow := dentQ_rowsum inp q i
  apply Prod.ext
  · rw [sum_fst, sum_fst,
      Finset.sum_congr rfl (fun k hk => by rw [hd k hk] :
        ∀ k ∈ _, (smulL (Dent inp q i k) (add3 (x k) (finV3 t))).1 =
          (smulL (F.fin (dentQ inp q i k)) (add3 (x k) (finV3 t))).1),
      Finset.sum_congr rfl (fun k hk => by rw [hd k hk] :
        ∀ k ∈ _, (smulL (Dent inp q i k) (x k)).1 =
          (smulL (F.fin (dentQ inp q i k)) (x k)).1)]
    exact sumF_shift _ _ (fun k => (x k).1) t.1 hrow
  · apply Prod.ext
    · rw [sum_snd1, sum_snd1,
        Finset.sum_congr rfl (fun k hk => by rw [hd k hk] :
          ∀ k ∈ _, (smulL (Dent inp q i k) (add3 (x k) (finV3 t))).2.1 =
            (smulL (F.fin (dentQ inp q i k)) (add3 (x k) (finV3 t))).2.1),
        Finset.sum_congr rfl (fun k hk => by rw [hd k hk] :
          ∀ k ∈ _, (smulL (Dent inp q i k) (x k)).2.1 =
            (smulL (F.fin (dentQ inp q i k)) (x k)).2.1)]
      exact sumF_shift _ _ (fun k => (x k).2.1) t.2.1 hrow
    · rw [sum_snd2, sum_snd2,
        Finset.sum_congr rfl (fun k hk => by rw [hd k hk] :
          ∀ k ∈ _, (smulL (Dent inp q i k) (add3 (x k) (finV3 t))).2.2 =
            (smulL (F.fin (dentQ inp q i k)) (add3 (x k) (finV3 t))).2.2),
        Finset.sum_congr rfl (fun k hk => by rw [hd k hk] :
          ∀ k ∈ _, (smulL (Dent inp q i k) (x k)).2.2 =
            (smulL (F.fin (dentQ inp q i k)) (x k)).2.2)]
      exact sumF_shift _ _ (fun k => (x k).2.2) t.2.2 hrow

theorem add3_right_comm (a b c : Vec3) : add3 (add3 a b) c = add3 (add3 a c) b := by
  show (a + b) + c = (a + c) + b
  exact add_right_comm a b c

/-- The acceleration closure is unchanged when the run is shifted: the
positions entering `D.dot` are all shifted by the same constant, which the
zero row sums of `D` cancel (provided the force densities are finite). -/
theorem accel_shift (inp : DRInput V E) (opts : DROptions) (q : Fin E → F)
    (hq : ∀ e, (q e).isFinite = true) (massv : Fin V → F) (rstate : Fin V → Vec3)
    (x0 : Fin V → Vec3) (t : ℚ × ℚ × ℚ) (tF : F) (v : Fin V → Vec3) (i : Fin V) :
    accel (shiftVerts inp t) opts q massv rstate (fun j => add3 (x0 j) (finV3 t)) tF v i =
      accel inp opts q massv rstate x0 tF v i := by
  have hfree : isFree (shiftVerts inp t) = isFree inp := rfl
  have hload : (shiftVerts inp t).loads = inp.loads := rfl
  have hD : D_dot (shiftVerts inp t) = D_dot inp := rfl
  simp only [accel, hfree, hload, hD]
  have hxt : (fun j => if isFree inp j
        then add3 (add3 (x0 j) (finV3 t)) (smulR (v j) tF) else add3 (x0 j) (finV3 t)) =
      (fun j => add3 (if isFree inp j then add3 (x0 j) (smulR (v j) tF) else x0 j) (finV3 t)) := by
    funext j
    by_cases hf : isFree inp j
    · rw [if_pos hf, if_pos hf]
      exact add3_right_comm _ _ _
    · rw [if_neg hf, if_neg hf]
  rw [hxt, D_dot_shift inp q hq]

/-- The whole `steps=4` Runge–Kutta velocity increment is unchanged when
the run is shifted. -/
theorem rk4_shift (inp : DRInput V E) (opts : DROptions) (q : Fin E → F)
    (hq : ∀ e, (q e).isFinite = true) (massv : Fin V → F) (rstate : Fin V → Vec3)
    (x0 v0 : Fin V → Vec3) (t : ℚ × ℚ × ℚ) :
    rk (shiftVerts inp t) opts q massv rstate (fun i => add3 (x0 i) (finV3 t)) v0 4 =
      rk inp opts q massv rstate x0 v0 4 := by
  have hacc : accel (shiftVerts inp t) opts q massv rstate (fun j => add3 (x0 j) (finV3 t)) =
      accel inp opts q massv rstate x0 :=
    funext fun tF => funext fun v => funext fun i =>
      accel_shift inp opts q hq massv rstate x0 t tF v i
  unfold rk
  rw [hacc]

theorem l0_shift (inp : DRInput V E) (t : ℚ × ℚ × ℚ) (sq : ℚ → ℚ) (e : Fin E) :
    l0 (shiftVerts inp t) sq e = l0 inp sq e := by
  unfold l0 normrow
  rw [show C_dot (shiftVerts inp t) (fun i => finV3 ((shiftVerts inp t).vertices i)) e =
      C_dot inp (fun i => add3 (finV3 (inp.vertices i)) (finV3 t)) e from rfl,
    C_dot_shift inp (fun i => finV3 (inp.vertices i)) t e]

theorem linitF_shift (inp : DRInput V E) (t : ℚ × ℚ × ℚ) (sq : ℚ → ℚ) (e : Fin E) :
    linitF (shiftVerts inp t) sq e = linitF inp sq e := by
  unfold linitF
  by_cases h : ∀ e2, inp.linit e2 = 0
  · rw [if_pos (show ∀ e2, (shiftVerts inp t).linit e2 = 0 from h), if_pos h, l0_shift]
  · rw [if_neg (show ¬ ∀ e2, (shiftVerts inp t).linit e2 = 0 from h), if_neg h]
    rfl

theorem assembleQ_shiftInput (inp : DRInput V E) (t : ℚ × ℚ × ℚ) (sq : ℚ → ℚ)
    (l f : Fin E → F) (e : Fin E) :
    assembleQ (shiftVerts inp t) sq l f e = assembleQ inp sq l f e := by
  unfold assembleQ q_fpre q_lpre q_EA
  rw [linitF_shift]
  rfl

theorem massOf_shiftInput (inp : DRInput V E) (t : ℚ × ℚ × ℚ) (opts : DROptions)
    (sq : ℚ → ℚ) (l f : Fin E → F) (i : Fin V) :
    massOf (shiftVerts inp t) opts sq l f i = massOf inp opts sq l f i := by
  unfold massOf Ct2_dot massTerm q_fpre q_lpre
  simp only [linitF_shift]
  rfl

theorem qOf_shift (inp : DRInput V E) (t : ℚ × ℚ × ℚ) (sq : ℚ → ℚ) (s : DRState V E) :
    qOf (shiftVerts inp t) sq (shiftState t s) = qOf inp sq s := by
  funext e
  exact assembleQ_shiftInput inp t sq s.l s.f e

theorem massvOf_shift (inp : DRInput V E) (t : ℚ × ℚ × ℚ) (opts : DROptions)
    (sq : ℚ → ℚ) (s : DRState V E) :
    massvOf (shiftVerts inp t) opts sq (shiftState t s) = massvOf inp opts sq s := by
  funext i
  exact massOf_shiftInput inp t opts sq s.l s.f i

theorem dvOf_shift (inp : DRInput V E) (opts : DROptions) (sq : ℚ → ℚ)
    (t : ℚ × ℚ × ℚ) (s : DRState V E) (hq : ∀ e, (qOf inp sq s e).isFinite = true) :
    dvOf (shiftVerts inp t) opts sq (shiftState t s) = dvOf inp opts sq s := by
  unfold dvOf
  rw [qOf_shift, massvOf_shift,
    show (shiftState t s).r = s.r from rfl,
    show (shiftState t s).x = (fun i => add3 (s.x i) (finV3 t)) from rfl,
    show v0Of opts (shiftState t s) = v0Of opts s from rfl,
    rk4_shift inp opts (qOf inp sq s) hq (massvOf inp opts sq s) s.r s.x (v0Of opts s) t]

theorem vNew_shift (inp : DRInput V E) (opts : DROptions) (sq : ℚ → ℚ)
    (t : ℚ × ℚ × ℚ) (s : DRState V E) (hq : ∀ e, (qOf inp sq s e).isFinite = true) :
    vNew (shiftVerts inp t) opts sq (shiftState t s) = vNew inp opts sq s := by
  unfold vNew
  rw [dvOf_shift inp opts sq t s hq]
  rfl

theorem xNew_shift (inp : DRInput V E) (opts : DROptions) (sq : ℚ → ℚ)
    (t : ℚ × ℚ × ℚ) (s : DRState V E) (hq : ∀ e, (qOf inp sq s e).isFinite = true) :
    xNew (shiftVerts inp t) opts sq (shiftState t s) =
      fun i => add3 (xNew inp opts sq s i) (finV3 t) := by
  funext i
  unfold xNew
  rw [vNew_shift inp opts sq t s hq]
  by_cases hf : isFree inp i
  · rw [if_pos (show isFree (shiftVerts inp t) i from hf), if_pos hf]
    show add3 (add3 (s.x i) (finV3 t)) (smulR (vNew inp opts sq s i) (F.fin opts.dt)) =
      add3 (add3 (s.x i) (smulR (vNew inp opts sq s i) (F.fin opts.dt))) (finV3 t)
    exact add3_right_comm _ _ _
  · rw [if_neg (show ¬ isFree (shiftVerts inp t) i from hf), if_neg hf]
    rfl

theorem uNew_shift (inp : DRInput V E) (opts : DROptions) (sq : ℚ → ℚ)
    (t : ℚ × ℚ × ℚ) (s : DRState V E) (hq : ∀ e, (qOf inp sq s e).isFinite = true) :
    uNew (shiftVerts inp t) opts sq (shiftState t s) = uNew inp opts sq s := by
  funext e
  unfold uNew
  rw [show C_dot (shiftVerts inp t) = C_dot inp (V := V) (E := E) from rfl,
    xNew_shift inp opts sq t s hq, C_dot_shift inp (xNew inp opts sq s) t e]

theorem lNew_shift (inp : DRInput V E) (opts : DROptions) (sq : ℚ → ℚ)
    (t : ℚ × ℚ × ℚ) (s : DRState V E) (hq : ∀ e, (qOf inp sq s e).isFinite = true) :
    lNew (shiftVerts inp t) opts sq (shiftState t s) = lNew inp opts sq s := by
  unfold lNew
  rw [uNew_shift inp opts sq t s hq]

theorem fNew_shift (inp : DRInput V E) (opts : DROptions) (sq : ℚ → ℚ)
    (t : ℚ × ℚ × ℚ) (s : DRState V E) (hq : ∀ e, (qOf inp sq s e).isFinite = true) :
    fNew (shiftVerts inp t) opts sq (shiftState t s) = fNew inp opts sq s := by
  funext e
  unfold fNew
  rw [qOf_shift, lNew_shift inp opts sq t s hq]

theorem rNew_shift (inp : DRInput V E) (opts : DROptions) (sq : ℚ → ℚ)
    (t : ℚ × ℚ × ℚ) (s : DRState V E) (hq : ∀ e, (qOf inp sq s e).isFinite = true) :
    rNew (shiftVerts inp t) opts sq (shiftState t s) = rNew inp opts sq s := by
  funext i
  unfold rNew
  rw [qOf_shift, uNew_shift inp opts sq t s hq]
  rfl

theorem iterStep_shift (inp : DRInput V E) (opts : DROptions) (sq : ℚ → ℚ)
    (t : ℚ × ℚ × ℚ) (s : DRState V E) (hq : ∀ e, (qOf inp sq s e).isFinite = true) :
    iterStep (shiftVerts inp t) opts sq (shiftState t s) =
      shiftState t (iterStep inp opts sq s) := by
  unfold iterStep
  rw [xNew_shift inp opts sq t s hq, vNew_shift inp opts sq t s hq,
    rNew_shift inp opts sq t s hq, qOf_shift, lNew_shift inp opts sq t s hq,
    fNew_shift inp opts sq t s hq]
  rfl

theorem initState_shift (inp : DRInput V E) (t : ℚ × ℚ × ℚ) (sq : ℚ → ℚ) :
    initState (shiftVerts inp t) sq = shiftState t (initState inp sq) := by
  unfold initState shiftState
  have hl : l0 (shiftVerts inp t) sq = l0 inp sq := funext (l0_shift inp t sq)
  rw [hl]
  rfl

theorem iterN_shift (inp : DRInput V E) (opts : DROptions) (sq : ℚ → ℚ)
    (t : ℚ × ℚ × ℚ) (k : ℕ) :
    ∀ s, (∀ j, j < k → ∀ e, (qOf inp sq (iterN inp opts sq j s) e).isFinite = true) →
      iterN (shiftVerts inp t) opts sq k (shiftState t s) =
        shiftState t (iterN inp opts sq k s) := by
  induction k with
  | zero => intro s _; rfl
  | succ k ih =>
      intro s hQ
      rw [iterN, iterN, iterStep_shift inp opts sq t s (hQ 0 (Nat.succ_pos k))]
      exact ih (iterStep inp opts sq s) (fun j hj e => hQ (j + 1) (Nat.succ_lt_succ hj) e)

unseal Rat.add Rat.mul Rat.inv Rat.sub in
/-- C8 (counterexample to the claim as stated): shifting the single-bar
network's vertex positions AND its load rows by (5,0,0), as the claim
prescribes, does not shift the solution: after one iteration the shifted
run's free vertex is not at the unshifted position plus 5 (the shifted load
adds a spurious `cb·t/mass` acceleration). -/
theorem C8_counterexample :
    ((iterN exBarShifted {} sqZero 1 (initState exBarShifted sqZero)).x 1).1 ≠
      addF ((iterN exBar {} sqZero 1 (initState exBar sqZero)).x 1).1 (F.fin 5) := by
  decide

/-- C8 (amended): adding a constant vector `t` to every vertex position
(fixed vertices included) while leaving the loads unchanged produces, after
the same number of iterations, exactly the unshifted state with positions
shifted by `t` (velocities, residuals, force densities, lengths and forces
all agree), provided every assembled force density along the unshifted run
is finite. -/
theorem C8_translation_shift (inp : DRInput V E) (opts : DROptions) (sq : ℚ → ℚ)
    (t : ℚ × ℚ × ℚ) (k : ℕ)
    (hQ : ∀ j, j < k → ∀ e,
      (qOf inp sq (iterN inp opts sq j (initState inp sq)) e).isFinite = true) :
    iterN (shiftVerts inp t) opts sq k (initState (shiftVerts inp t) sq) =
      shiftState t (iterN inp opts sq k (initState inp sq)) := by
  rw [initState_shift inp t sq]
  exact iterN_shift inp opts sq t k (initState inp sq) hQ

unseal Rat.add Rat.mul Rat.inv Rat.sub in
/-- C8 (witness): the amended translation theorem applied to the single-bar
network, the shift (5,0,0) and one iteration. -/
theorem C8_translation_shift_witness :
    (∀ e, (qOf exBar sqZero (iterN exBar {} sqZero 0 (initState exBar sqZero)) e).isFinite
      = true) ∧
    iterN (shiftVerts exBar (5, 0, 0)) {} sqZero 1 (initState (shiftVerts exBar (5, 0, 0)) sqZero) =
      shiftState (5, 0, 0) (iterN exBar {} sqZero 1 (initState exBar sqZero)) :=
  ⟨by decide,
   C8_translation_shift exBar {} sqZero (5, 0, 0) 1 (fun j hj e => by
     have h0 : j = 0 := Nat.lt_one_iff.mp hj
     subst h0
     revert e
     decide)⟩

end Compas
